import Mathlib

set_option maxRecDepth 200000

/-
Verification of the rbtc elliptic-curve core: a shallow embedding of
src/ecc/field_element.rs, src/ecc/abstractions.rs, src/ecc/scalar.rs,
src/ecc/point/point.rs, src/ecc/s256_field.rs and
src/ecc/point/s256_point.rs, together with theorems checking the
specification claims against it.

Modelling conventions:
- num_bigint::BigInt becomes Int; the Rust remainder operator on BigInt
  truncates toward zero, so it is modelled by Int.tmod; the arithmetic
  shift right on the nonnegative loop counters is Int.ediv by 2 and
  a bitand with one on a positive counter is its remainder tmod 2.
- Result is modelled by Except; error payload strings are dropped,
  only the error kind is kept.
- BigInt::modpow (called with nonnegative base, exponent and positive
  modulus in this code) is modelled by binary exponentiation over Nat
  (modpowAux, structurally recursive on a fuel argument that bounds
  the exponent).
- The while loops of pow_mod and of the two scalar-multiplication
  implementations are modelled by structurally recursive functions on
  a fuel argument large enough for every terminating run of the source.
- Rust panics (the .unwrap and .expect calls) occur in this code only
  on states the claims never reach; where a model value is still needed
  the surrounding error is propagated (Point.new validation) or a
  default field element is returned (Option.getD for coordinates that
  are provably present on every path that reads them).
-/

/-- Error kinds of src/ecc/error.rs (payload strings dropped). -/
inductive FieldElementError where
  | FieldNotInRange : FieldElementError
  | InvalidField : FieldElementError
  | PointNotOnTheCurve : FieldElementError
deriving DecidableEq

deriving instance DecidableEq for Except

/-- FieldElement of src/ecc/field_element.rs: num and prime are BigInt. -/
structure FieldElement where
  num : Int
  prime : Int
deriving DecidableEq

/-- The construction invariant checked by from_values: 0 <= num < prime. -/
def FieldElement.isValid (fe : FieldElement) : Prop :=
  0 ≤ fe.num ∧ fe.num < fe.prime

instance (fe : FieldElement) : Decidable fe.isValid := by
  unfold FieldElement.isValid; infer_instance

/-- FieldElementTrait::from_values (field_element.rs lines 33-43). -/
def FieldElement.from_values (num prime : Int) : Except FieldElementError FieldElement :=
  if num ≥ prime ∨ num < 0 then .error .FieldNotInRange
  else .ok ⟨num, prime⟩

/-- FieldElementTrait::check_primes (abstractions.rs lines 38-45). -/
def FieldElement.check_primes (a b : FieldElement) : Except FieldElementError Unit :=
  if a.prime ≠ b.prime then .error .InvalidField else .ok ()

/-- Add for FieldElement (field_element.rs lines 74-114, all three
borrow combinations compute identically). -/
def FieldElement.add (a b : FieldElement) : Except FieldElementError FieldElement := do
  a.check_primes b
  .ok ⟨Int.tmod (a.num + b.num) a.prime, a.prime⟩

/-- Sub for FieldElement (field_element.rs lines 116-171): truncated
remainder, re-adding the prime when the remainder is negative. -/
def FieldElement.sub (a b : FieldElement) : Except FieldElementError FieldElement := do
  a.check_primes b
  let s := Int.tmod (a.num - b.num) a.prime
  .ok ⟨if s < 0 then s + a.prime else s, a.prime⟩

/-- Mul for FieldElement (field_element.rs lines 173-213). -/
def FieldElement.mul (a b : FieldElement) : Except FieldElementError FieldElement := do
  a.check_primes b
  .ok ⟨Int.tmod (a.num * b.num) a.prime, a.prime⟩

/-- Binary modular exponentiation, the model of BigInt::modpow for
nonnegative arguments; fuel bounds the exponent. -/
def modpowAux : Nat → Nat → Nat → Nat → Nat
  | 0, _, _, m => 1 % m
  | fuel+1, b, e, m =>
    if e = 0 then 1 % m
    else
      let r := modpowAux fuel (b * b % m) (e / 2) m
      if e % 2 = 1 then r * b % m else r

/-- BigInt::modpow model: fuel equal to the exponent always suffices. -/
def modpow (b e m : Nat) : Nat := modpowAux e b e m

/-- Div for FieldElement (field_element.rs lines 215-267): Fermat
inversion, num = self.num * rhs.num.modpow(prime - 2, prime) % prime. -/
def FieldElement.div (a b : FieldElement) : Except FieldElementError FieldElement :=
  if a.prime ≠ b.prime then .error .InvalidField
  else
    let exp := a.prime - 2
    let num := Int.tmod (a.num * (modpow b.num.toNat exp.toNat a.prime.toNat : Int)) a.prime
    .ok ⟨num, a.prime⟩

/-- The while loop of pow_mod (abstractions.rs lines 31-33): add
prime - 1 to the exponent until it is nonnegative.  natAbs of the
starting exponent bounds the number of iterations whenever
prime - 1 is at least 1. -/
def normalizeExpAux : Nat → Int → Int → Int
  | 0, n, _ => n
  | fuel+1, n, pm1 => if n < 0 then normalizeExpAux fuel (n + pm1) pm1 else n

/-- FieldElementTrait::pow_mod (abstractions.rs lines 28-36).  The final
from_values(..).expect never fails for a prime modulus, so the result
is returned directly. -/
def FieldElement.pow_mod (x : FieldElement) (exponent : Int) : FieldElement :=
  let n := normalizeExpAux exponent.natAbs exponent (x.prime - 1)
  ⟨(modpow x.num.toNat n.toNat x.prime.toNat : Int), x.prime⟩

/-- Scalar of src/ecc/scalar.rs. -/
structure Scalar where
  n : Int
deriving DecidableEq

/-- The while loop of Mul for Scalar against a field element
(scalar.rs lines 50-58): double-and-add on the bits of coef. -/
def scalarLoopFE : Nat → Int → FieldElement → FieldElement → Except FieldElementError FieldElement
  | 0, _, _, result => .ok result
  | fuel+1, coef, current, result =>
    if 0 < coef then do
      let r ← if Int.tmod coef 2 = 1 then result.add current else pure result
      let current2 ← current.add current
      scalarLoopFE fuel (Int.ediv coef 2) current2 r
    else .ok result

/-- Mul of Scalar with a field element (scalar.rs lines 39-62; the
by-reference implementation at lines 64-93 computes identically):
coef starts at n - 1 and result starts at a copy of the operand. -/
def Scalar.mulFE (s : Scalar) (rhs : FieldElement) : Except FieldElementError FieldElement := do
  let coef := s.n - 1
  let result ← FieldElement.from_values rhs.num rhs.prime
  scalarLoopFE coef.natAbs coef rhs result

/-- Point of src/ecc/point/point.rs, instantiated at FieldElement.
The S256Field wrapper of s256_field.rs delegates every operation to
FieldElement with the secp256k1 prime, so Point over S256Field is the
same computation with that fixed prime. -/
structure Point where
  a : FieldElement
  b : FieldElement
  x : Option FieldElement
  y : Option FieldElement
deriving DecidableEq

/-- Point::new (point/point.rs lines 23-60): with any coordinate absent
the point at infinity is returned; otherwise y^2 is compared with
x^3 + a*x + b, both computed through pow_mod, mul and add. -/
def Point.new (a b : FieldElement) (x y : Option FieldElement) : Except FieldElementError Point :=
  match x, y with
  | some xv, some yv =>
    let y_squared := yv.pow_mod 2
    match (a.mul xv).bind (fun ax => ((xv.pow_mod 3).add ax).bind (fun s => s.add b)) with
    | .error e => .error e
    | .ok equation =>
      if y_squared ≠ equation then .error .PointNotOnTheCurve
      else .ok ⟨a, b, some xv, some yv⟩
  | _, _ => .ok ⟨a, b, none, none⟩

/-- Point::is_additive_inverse (point/point.rs lines 62-64). -/
def Point.is_additive_inverse (p q : Point) : Prop :=
  p.x = q.x ∧ p.y ≠ q.y

instance (p q : Point) : Decidable (p.is_additive_inverse q) := by
  unfold Point.is_additive_inverse; infer_instance

/-- Point::is_on_vertical_line (point/point.rs lines 66-73). -/
def Point.is_on_vertical_line (p : Point) : Prop :=
  match p.y, p.x with
  | some y1, some _ => y1.num = 0
  | _, _ => False

instance (p : Point) : Decidable p.is_on_vertical_line := by
  unfold Point.is_on_vertical_line
  rcases p with ⟨a, b, x, y⟩
  rcases x <;> rcases y <;> simp <;> infer_instance

/-- Point::check_points_on_the_curve (point/point.rs lines 75-83): note
the source errors only when the a coefficients differ AND the b
coefficients differ. -/
def Point.check_points_on_the_curve (p q : Point) : Except FieldElementError Unit :=
  if p.a ≠ q.a ∧ p.b ≠ q.b then .error .PointNotOnTheCurve else .ok ()

/-- Stand-in for the value of a coordinate unwrap that the control flow
guarantees is present. -/
def feDefault : FieldElement := ⟨0, 0⟩

/-- Add for Point (point/point.rs lines 121-192; the by-reference
implementation at lines 194-275 computes identically).  Branch order as
in the source: curve check, self at infinity, other at infinity,
additive inverse (which returns Point::new of the coordinates of SELF),
distinct x, vertical tangent, equal points, defensive error. -/
def Point.add (p q : Point) : Except FieldElementError Point := do
  p.check_points_on_the_curve q
  if p.x = none then return q
  else if q.x = none then return p
  else if p.is_additive_inverse q then Point.new p.a p.b p.x p.y
  else if p.x ≠ q.x then
    let x1 := p.x.getD feDefault
    let y1 := p.y.getD feDefault
    let x2 := q.x.getD feDefault
    let y2 := q.y.getD feDefault
    let dy ← y2.sub y1
    let dx ← x2.sub x1
    let slope ← dy.div dx
    let t1 ← (slope.pow_mod 2).sub x1
    let x3 ← t1.sub x2
    let t2 ← x1.sub x3
    let t3 ← slope.mul t2
    let y3 ← t3.sub y1
    Point.new p.a p.b (some x3) (some y3)
  else if p = q ∧ p.is_on_vertical_line then Point.new p.a p.b none none
  else if p = q then
    let x1 := p.x.getD feDefault
    let y1 := p.y.getD feDefault
    let sq ← (x1.pow_mod 2).add p.a
    let quotient ← Scalar.mulFE ⟨3⟩ sq
    let dividend ← Scalar.mulFE ⟨2⟩ y1
    let s ← quotient.div dividend
    let twox ← Scalar.mulFE ⟨2⟩ x1
    let x3 ← (s.pow_mod 2).sub twox
    let t2 ← x1.sub x3
    let t3 ← s.mul t2
    let y3 ← t3.sub y1
    Point.new p.a p.b (some x3) (some y3)
  else .error .PointNotOnTheCurve

/-- The while loop of Mul of Scalar with an S256Point
(point/s256_point.rs lines 110-116); the .unwrap on each addition is
modelled by propagating the error. -/
def scalarLoopPoint : Nat → Int → Point → Point → Except FieldElementError Point
  | 0, _, _, result => .ok result
  | fuel+1, coef, current, result =>
    if 0 < coef then do
      let r ← if Int.tmod coef 2 = 1 then result.add current else pure result
      let current2 ← current.add current
      scalarLoopPoint fuel (Int.ediv coef 2) current2 r
    else .ok result

/-- The secp256k1 prime 2^256 - 2^32 - 977 (s256_field.rs lines 36-39). -/
def s256Prime : Int := 2 ^ 256 - 2 ^ 32 - 977

/-- S256Field::new (s256_field.rs lines 34-44); the from_values
.expect never fails for the in-range constants used here. -/
def S256Field.new (num : Int) : FieldElement := ⟨num, s256Prime⟩

/-- S256Field::get_a (s256_field.rs lines 46-48). -/
def S256Field.get_a : FieldElement := S256Field.new 0

/-- S256Field::get_b (s256_field.rs lines 50-52). -/
def S256Field.get_b : FieldElement := S256Field.new 7

/-- S256Point::new(None, None) (s256_point.rs lines 19-26): the point
at infinity of the secp256k1 curve, the initial accumulator of the
scalar-multiplication loop. -/
def s256Infinity : Point := ⟨S256Field.get_a, S256Field.get_b, none, none⟩

/-- Mul of Scalar with an S256Point (s256_point.rs lines 99-120):
coef starts at n and result starts at the point at infinity. -/
def Scalar.mulS256 (s : Scalar) (rhs : Point) : Except FieldElementError Point :=
  scalarLoopPoint s.n.natAbs s.n rhs s256Infinity

/-- Generator x coordinate (s256_point.rs lines 29-35). -/
def gxNum : Int := 0x79be667ef9dcbbac55a06295ce870b07029bfcdb2dce28d959f2815b16f81798

/-- Generator y coordinate (s256_point.rs lines 37-43). -/
def gyNum : Int := 0x483ada7726a3c4655da4fbfc0e1108a8fd17b448a68554199c47d08ffb10d4b8

/-- S256Point::get_generator_point (s256_point.rs lines 28-46), as the
point value its Point::new construction returns. -/
def Gpoint : Point :=
  ⟨S256Field.get_a, S256Field.get_b, some (S256Field.new gxNum), some (S256Field.new gyNum)⟩

/-- Modelled from the spec: n-fold repeated addition of a field element
to itself (the reference computation of the scalar-multiplication
consistency property; the repository has no such function). -/
def repAddFE : Nat → FieldElement → Except FieldElementError FieldElement
  | 0, x => .ok x
  | 1, x => .ok x
  | n+2, x => do
    let r ← repAddFE (n+1) x
    r.add x

/-- Modelled from the spec: n-fold repeated addition of a point to
itself under the group law (the reference computation of the
scalar-multiplication consistency property). -/
def repAddPoint : Nat → Point → Except FieldElementError Point
  | 0, x => .ok x
  | 1, x => .ok x
  | n+2, x => do
    let r ← repAddPoint (n+1) x
    r.add x

/-- Modelled from the spec: the scalar multiplication of a generic
curve point, section 4.3 of the spec (result starts at the group
identity appropriate to the operand, here the point at infinity of the
curve of the operand, then the double-and-add loop over the bits of n,
exactly the loop of the S256Point implementation).  The repository
declares this operation only through the commented-out test
scalar_multiplication_point of point/point.rs (lines 392-410); the
generic Mul of Scalar with a Point is missing from the source. -/
def Scalar.mulPoint (s : Scalar) (rhs : Point) : Except FieldElementError Point :=
  scalarLoopPoint s.n.natAbs s.n rhs ⟨rhs.a, rhs.b, none, none⟩

/-- The point (0, 26) of the curve y^2 = x^3 + 7 over F_223.  Under the
group law it has order 3: doubling it gives (0, 197), its additive
inverse. -/
def p0y26 : Point := ⟨⟨0, 223⟩, ⟨7, 223⟩, some ⟨0, 223⟩, some ⟨26, 223⟩⟩

/-- The point (0, 197) = 2 * (0, 26) of the same curve. -/
def p0y197 : Point := ⟨⟨0, 223⟩, ⟨7, 223⟩, some ⟨0, 223⟩, some ⟨197, 223⟩⟩

/-- The point (47, 71) of the curve y^2 = x^3 + 7 over F_223 used by the
tests of the repository. -/
def p47 : Point := ⟨⟨0, 223⟩, ⟨7, 223⟩, some ⟨47, 223⟩, some ⟨71, 223⟩⟩

/-- The additive inverse (47, 152) of p47 on the same curve. -/
def p47neg : Point := ⟨⟨0, 223⟩, ⟨7, 223⟩, some ⟨47, 223⟩, some ⟨152, 223⟩⟩

/-- The point (192, 105) of the same curve. -/
def p192 : Point := ⟨⟨0, 223⟩, ⟨7, 223⟩, some ⟨192, 223⟩, some ⟨105, 223⟩⟩

/-- A point at infinity carrying curve coefficients a = 1, b = 7 over
F_223: same b as the curve of p192 but different a. -/
def infinityA1 : Point := ⟨⟨1, 223⟩, ⟨7, 223⟩, none, none⟩

/-- The x coordinate value carried by a point-addition result, when the
result is a finite point. -/
def xCoordNum : Except FieldElementError Point → Option Int
  | .ok p => p.x.map FieldElement.num
  | .error _ => none

/-- The x coordinate the spec states for 1485 * G (63 hex digits). -/
def specClaimX : Int := 0xc982196a7466fbbbb0e27a940b6af926c1a74d5ad07128c82824a11b5398afd

/-- The x coordinate 1485 * G actually has, as in the test vector of
the repository (64 hex digits; the spec dropped the final digit). -/
def testVectorX : Int := 0xc982196a7466fbbbb0e27a940b6af926c1a74d5ad07128c82824a11b5398afda

/-- The y coordinate of 1485 * G, from the repository test vector. -/
def testVectorY : Int := 0x7a91f9eae64438afb9ce6448a1c133db2d8fb9254e4546b6f001637d50901f55

/-- The observable outcome a range claim is about: the operation
returned Ok and the returned element satisfies 0 <= num < prime. -/
def returnsValid (res : Except FieldElementError FieldElement) : Prop :=
  match res with
  | .ok r => r.isValid
  | .error _ => False

instance (res : Except FieldElementError FieldElement) : Decidable (returnsValid res) := by
  unfold returnsValid
  rcases res <;> infer_instance

/-- Evaluation of the scalar-multiplication stack at 1485 * G: it
returns the test-vector point recorded in the repository. -/
theorem mulS256_1485_generator :
    Scalar.mulS256 ⟨1485⟩ Gpoint =
      .ok ⟨S256Field.get_a, S256Field.get_b,
           some (S256Field.new testVectorX), some (S256Field.new testVectorY)⟩ := by
  decide

/-- C1: for two on-curve points with equal x and different y the source
returns Point::new of the coordinates of SELF, that is the left operand
itself, not the point at infinity the claim states.  Shown at
P = (47, 71) and Q = (47, 152) on y^2 = x^3 + 7 over F_223. -/
theorem C1_additive_inverse_returns_operand :
    p47.is_additive_inverse p47neg ∧
    Point.add p47 p47neg = .ok p47 ∧
    Point.add p47 p47neg ≠ .ok ⟨⟨0, 223⟩, ⟨7, 223⟩, none, none⟩ := by
  decide

/-- C2: scalar multiplication by n = 0 returns the operand itself for a
field element (Mul of Scalar starts its accumulator at the operand with
coef = n - 1), not the zero element the claim states; the point
implementation does return the point at infinity. -/
theorem C2_scalar_zero_field_element_not_identity :
    Scalar.mulFE ⟨0⟩ ⟨15, 223⟩ = .ok ⟨15, 223⟩ ∧
    Scalar.mulFE ⟨0⟩ ⟨15, 223⟩ ≠ .ok ⟨0, 223⟩ ∧
    Scalar.mulS256 ⟨0⟩ Gpoint = .ok s256Infinity := by
  decide

/-- C3: with a mismatch in the a coefficient alone the curve check
passes (the source requires BOTH coefficients to differ before it
errors) and addition returns Ok instead of failing with
PointNotOnTheCurve.  Shown for (192, 105) on a = 0, b = 7 plus the
point at infinity of a = 1, b = 7 over F_223. -/
theorem C3_coefficient_mismatch_not_rejected :
    p192.a ≠ infinityA1.a ∧
    p192.check_points_on_the_curve infinityA1 = .ok () ∧
    Point.add p192 infinityA1 = .ok p192 := by
  decide

/-- C4: point addition is not commutative in the source: for the
additive-inverse pair P = (47, 71), Q = (47, 152) over F_223 it returns
P + Q = Ok P but Q + P = Ok Q, two different points. -/
theorem C4_addition_not_commutative :
    Point.add p47 p47neg = .ok p47 ∧
    Point.add p47neg p47 = .ok p47neg ∧
    p47 ≠ p47neg ∧
    Point.add p47 p47neg ≠ Point.add p47neg p47 := by
  decide

/-- C5 counterexample: the x coordinate of 1485 * G is not the 63-digit
hex value the spec states. -/
theorem C5_spec_x_coordinate_wrong :
    xCoordNum (Scalar.mulS256 ⟨1485⟩ Gpoint) ≠ some specClaimX := by
  rw [mulS256_1485_generator]
  decide

/-- C5 amended: the x coordinate of 1485 * G is the full 64-digit hex
value c982196a7466fbbbb0e27a940b6af926c1a74d5ad07128c82824a11b5398afda
of the repository test vector. -/
theorem C5_x_coordinate_of_1485_G :
    xCoordNum (Scalar.mulS256 ⟨1485⟩ Gpoint) = some testVectorX := by
  rw [mulS256_1485_generator]
  decide

/-- C8 counterexample: the Fermat periodicity claim fails at the valid
field element 0 mod 31 with k = 0, where pow_mod 0 is 1 but
pow_mod (0 + 30) is 0. -/
theorem C8_fails_at_zero_element :
    (⟨0, 31⟩ : FieldElement).isValid ∧
    FieldElement.pow_mod ⟨0, 31⟩ 0 ≠ FieldElement.pow_mod ⟨0, 31⟩ (0 + (31 - 1)) := by
  decide

/-- C10: constructing a point with exactly one coordinate supplied
succeeds and silently returns the point at infinity with both
coordinates absent. -/
theorem C10_single_coordinate_gives_infinity (a b xv yv : FieldElement) :
    Point.new a b (some xv) none = .ok ⟨a, b, none, none⟩ ∧
    Point.new a b none (some yv) = .ok ⟨a, b, none, none⟩ :=
  ⟨rfl, rfl⟩

/-- Closed form of the binary-exponentiation helper: with enough fuel
it computes pow then remainder. -/
theorem modpowAux_eq (fuel : Nat) : ∀ b e m : Nat, e ≤ fuel →
    modpowAux fuel b e m = b ^ e % m := by
  induction fuel with
  | zero =>
    intro b e m he
    interval_cases e
    simp [modpowAux]
  | succ f ih =>
    intro b e m he
    rcases Nat.eq_zero_or_pos e with h0 | hpos
    · subst h0; simp [modpowAux]
    · have hstep : e / 2 ≤ f := by omega
      have hr := ih (b * b % m) (e / 2) m hstep
      have hsplit : 2 * (e / 2) + e % 2 = e := by omega
      simp only [modpowAux, Nat.pos_iff_ne_zero.mp hpos, if_false]
      rw [hr]
      have hbb : (b * b % m) ^ (e / 2) % m = (b * b) ^ (e / 2) % m := by
        rw [← Nat.pow_mod]
      rw [hbb, show b * b = b ^ 2 from (sq b).symm, ← pow_mul]
      rcases Nat.mod_two_eq_zero_or_one e with hpar | hpar
      · simp only [hpar]
        norm_num
        have h6 : 2 * (e / 2) = e := by omega
        rw [h6]
      · simp only [hpar, if_true]
        rw [Nat.mod_mul_mod]
        have h6 : 2 * (e / 2) + 1 = e := by omega
        rw [← pow_succ, h6]

/-- The modpow model always equals pow followed by remainder. -/
theorem modpow_eq (b e m : Nat) : modpow b e m = b ^ e % m :=
  modpowAux_eq e b e m le_rfl

/-- Truncated remainder is the identity on dividends below the divisor
in absolute value. -/
theorem tmod_small {d p : Int} (h1 : -p < d) (h2 : d < p) : Int.tmod d p = d := by
  rcases le_or_lt 0 d with h | h
  · exact Int.tmod_eq_of_lt h h2
  · have h3 : (-d).tdiv p = 0 := Int.tdiv_eq_zero_of_lt (by omega) (by omega)
    have h4 : (-d).tdiv p = -(d.tdiv p) := Int.neg_tdiv d p
    have h5 : d.tdiv p = 0 := by omega
    rw [Int.tmod_def, h5]
    ring

/-- Closed form of the exponent-normalization loop of pow_mod: a
nonnegative exponent is unchanged, a negative one becomes its
Euclidean remainder by prime - 1. -/
theorem normalizeExpAux_eq (fuel : Nat) : ∀ n pm1 : Int, 1 ≤ pm1 → (-n).toNat ≤ fuel →
    normalizeExpAux fuel n pm1 = if n < 0 then n % pm1 else n := by
  induction fuel with
  | zero =>
    intro n pm1 h1 h2
    have : ¬ n < 0 := by omega
    simp [normalizeExpAux, this]
  | succ f ih =>
    intro n pm1 h1 h2
    by_cases hn : n < 0
    · simp only [normalizeExpAux, hn, if_true]
      rw [ih (n + pm1) pm1 h1 (by omega)]
      by_cases hnp : n + pm1 < 0
      · simp only [hnp, if_true, hn, if_true]
        exact Int.add_emod_self
      · simp only [hnp, if_false, hn, if_true]
        rw [show n % pm1 = (n + pm1) % pm1 by rw [← Int.add_mul_emod_self_left n pm1 1, mul_one]]
        exact (Int.emod_eq_of_lt (by omega) (by omega)).symm
    · simp [normalizeExpAux, hn]

/-- Fermat little theorem, remainder form. -/
theorem fermat_one (P A : Nat) (hP : P.Prime) (hA : ¬ P ∣ A) :
    A ^ (P - 1) ≡ 1 [MOD P] := by
  have hco : Nat.Coprime A P := ((Nat.Prime.coprime_iff_not_dvd hP).mpr hA).symm
  have h := Nat.ModEq.pow_totient hco
  rwa [Nat.totient_prime hP] at h

/-- Exponents may be shifted by P - 1 without changing the residue. -/
theorem fermat_period (P A e : Nat) (hP : P.Prime) (hA : ¬ P ∣ A) :
    A ^ (e + (P - 1)) % P = A ^ e % P := by
  have h1 : A ^ (e + (P - 1)) ≡ A ^ e * 1 [MOD P] := by
    rw [pow_add]
    exact (fermat_one P A hP hA).mul_left (A ^ e)
  have h2 := h1.trans (by rw [mul_one])
  exact h2

/-- A value strictly between 0 and P is not divisible by P. -/
theorem not_dvd_of_pos_lt {P B : Nat} (h0 : 0 < B) (h1 : B < P) : ¬ P ∣ B := by
  intro hdvd
  exact absurd (Nat.le_of_dvd h0 hdvd) (by omega)

/-- Core of the division round trip: multiplying the Fermat-inverse
product back by B recovers A. -/
theorem div_mul_core (P A B : Nat) (hP : P.Prime) (hA : A < P) (h0 : 0 < B) (hB : B < P) :
    A * (B ^ (P - 2) % P) % P * B % P = A := by
  rw [Nat.mod_mul_mod]
  have hnd := not_dvd_of_pos_lt h0 hB
  have h1 : A * (B ^ (P - 2) % P) * B ≡ A * B ^ (P - 2) * B [MOD P] :=
    ((Nat.mod_modEq (B ^ (P - 2)) P).mul_left A).mul_right B
  have h2 : A * B ^ (P - 2) * B = A * B ^ (P - 2 + 1) := by
    rw [mul_assoc, pow_succ]
  have h3 : P - 2 + 1 = P - 1 := by have := hP.two_le; omega
  have h4 : A * B ^ (P - 1) ≡ A * 1 [MOD P] := (fermat_one P B hP hnd).mul_left A
  have h5 : A * (B ^ (P - 2) % P) * B ≡ A [MOD P] := by
    calc A * (B ^ (P - 2) % P) * B ≡ A * B ^ (P - 2) * B [MOD P] := h1
      _ = A * B ^ (P - 1) := by rw [h2, h3]
      _ ≡ A * 1 [MOD P] := h4
      _ = A := by rw [mul_one]
  have h6 : A * (B ^ (P - 2) % P) * B % P = A % P := h5
  rw [h6, Nat.mod_eq_of_lt hA]

/-- pow_mod always lands in the field range for a positive modulus. -/
theorem pow_mod_isValid (x : FieldElement) (k : Int) (hp : 0 < x.prime) :
    (x.pow_mod k).isValid := by
  unfold FieldElement.pow_mod FieldElement.isValid
  simp only []
  refine ⟨Int.natCast_nonneg _, ?_⟩
  rw [modpow_eq]
  have hP : 0 < x.prime.toNat := by omega
  have hlt := Nat.mod_lt (x.num.toNat ^ (normalizeExpAux k.natAbs k (x.prime - 1)).toNat) hP
  omega

/-- Evaluation of add on operands of one field. -/
theorem add_unfold (a b : FieldElement) (h : a.prime = b.prime) :
    a.add b = .ok ⟨Int.tmod (a.num + b.num) a.prime, a.prime⟩ := by
  unfold FieldElement.add FieldElement.check_primes
  simp [h]
  rfl

/-- Evaluation of sub on operands of one field. -/
theorem sub_unfold (a b : FieldElement) (h : a.prime = b.prime) :
    a.sub b = .ok ⟨if Int.tmod (a.num - b.num) a.prime < 0
                   then Int.tmod (a.num - b.num) a.prime + a.prime
                   else Int.tmod (a.num - b.num) a.prime, a.prime⟩ := by
  unfold FieldElement.sub FieldElement.check_primes
  simp [h]
  rfl

/-- Evaluation of mul on operands of one field. -/
theorem mul_unfold (a b : FieldElement) (h : a.prime = b.prime) :
    a.mul b = .ok ⟨Int.tmod (a.num * b.num) a.prime, a.prime⟩ := by
  unfold FieldElement.mul FieldElement.check_primes
  simp [h]
  rfl

/-- Evaluation of div on operands of one field. -/
theorem div_unfold (a b : FieldElement) (h : a.prime = b.prime) :
    a.div b = .ok ⟨Int.tmod (a.num * (modpow b.num.toNat (a.prime - 2).toNat a.prime.toNat : Int)) a.prime, a.prime⟩ := by
  unfold FieldElement.div
  simp [h]

/-- returnsValid on an Ok outcome is the range invariant itself. -/
theorem returnsValid_ok (r : FieldElement) : returnsValid (.ok r) = r.isValid := rfl

/-- C9: on validly constructed operands sharing one (prime, so greater
than 1) modulus, each of add, sub, mul and div returns Ok with a value
in the range 0 <= value < modulus, and pow_mod returns a value in that
range for every integer exponent. -/
theorem C9_arithmetic_stays_in_range (a b : FieldElement) (k : Int)
    (hp : 1 < a.prime) (hpr : a.prime = b.prime) (ha : a.isValid) (hb : b.isValid) :
    returnsValid (a.add b) ∧ returnsValid (a.sub b) ∧ returnsValid (a.mul b) ∧
    returnsValid (a.div b) ∧ (a.pow_mod k).isValid := by
  obtain ⟨ha0, ha1⟩ := ha
  obtain ⟨hb0, hb1⟩ := hb
  have hp0 : 0 < a.prime := by omega
  refine ⟨?_, ?_, ?_, ?_, pow_mod_isValid a k hp0⟩
  · rw [add_unfold a b hpr, returnsValid_ok]
    exact ⟨Int.tmod_nonneg a.prime (by omega), Int.tmod_lt_of_pos _ hp0⟩
  · rw [sub_unfold a b hpr]
    have hd : Int.tmod (a.num - b.num) a.prime = a.num - b.num :=
      tmod_small (by omega) (by omega)
    rw [hd, returnsValid_ok]
    unfold FieldElement.isValid
    dsimp only
    constructor
    · split <;> omega
    · split <;> omega
  · rw [mul_unfold a b hpr, returnsValid_ok]
    have hnn : 0 ≤ a.num * b.num := mul_nonneg ha0 hb0
    exact ⟨Int.tmod_nonneg a.prime hnn, Int.tmod_lt_of_pos _ hp0⟩
  · rw [div_unfold a b hpr, returnsValid_ok]
    have hnn : 0 ≤ a.num * (modpow b.num.toNat (a.prime - 2).toNat a.prime.toNat : Int) :=
      mul_nonneg ha0 (Int.natCast_nonneg _)
    exact ⟨Int.tmod_nonneg a.prime hnn, Int.tmod_lt_of_pos _ hp0⟩

/-- C7: for field elements a and b over one prime modulus with b not
the zero element, division followed by multiplication round-trips:
(a / b) * b equals a. -/
theorem C7_div_mul_roundtrip (a b : FieldElement) (hpr : a.prime = b.prime)
    (hP : Nat.Prime a.prime.toNat) (ha : a.isValid) (hb : b.isValid) (hb0 : b.num ≠ 0) :
    (a.div b).bind (fun q => q.mul b) = .ok a := by
  obtain ⟨ha0, ha1⟩ := ha
  obtain ⟨hb0n, hb1⟩ := hb
  have hp2 : (2 : Int) ≤ a.prime := by have := hP.two_le; omega
  have hA : ((a.num.toNat : Nat) : Int) = a.num := Int.toNat_of_nonneg ha0
  have hB : ((b.num.toNat : Nat) : Int) = b.num := Int.toNat_of_nonneg hb0n
  have hPc : ((a.prime.toNat : Nat) : Int) = a.prime := Int.toNat_of_nonneg (by omega)
  have hexp : (a.prime - 2).toNat = a.prime.toNat - 2 := by omega
  rw [div_unfold a b hpr, hexp, modpow_eq]
  have h1 : Int.tmod (a.num * ((b.num.toNat ^ (a.prime.toNat - 2) % a.prime.toNat : Nat) : Int)) a.prime
      = ((a.num.toNat * (b.num.toNat ^ (a.prime.toNat - 2) % a.prime.toNat) % a.prime.toNat : Nat) : Int) := by
    rw [← hA, ← hPc, ← Nat.cast_mul, ← Int.ofNat_tmod]
    rfl
  rw [h1]
  show FieldElement.mul _ b = Except.ok a
  rw [mul_unfold ⟨((a.num.toNat * (b.num.toNat ^ (a.prime.toNat - 2) % a.prime.toNat) % a.prime.toNat : Nat) : Int), a.prime⟩ b hpr]
  have h2 : Int.tmod (((a.num.toNat * (b.num.toNat ^ (a.prime.toNat - 2) % a.prime.toNat) % a.prime.toNat : Nat) : Int) * b.num) a.prime
      = ((a.num.toNat * (b.num.toNat ^ (a.prime.toNat - 2) % a.prime.toNat) % a.prime.toNat * b.num.toNat % a.prime.toNat : Nat) : Int) := by
    rw [← hB, ← hPc, ← Nat.cast_mul, ← Int.ofNat_tmod]
    rfl
  rw [h2, div_mul_core a.prime.toNat a.num.toNat b.num.toNat hP (by omega) (by omega) (by omega)]
  rw [hA]

/-- C7 witness at a = 3, b = 24 over F_31. -/
theorem C7_witness :
    (⟨3, 31⟩ : FieldElement).prime = (⟨24, 31⟩ : FieldElement).prime ∧
    Nat.Prime (⟨3, 31⟩ : FieldElement).prime.toNat ∧
    (⟨3, 31⟩ : FieldElement).isValid ∧
    (⟨24, 31⟩ : FieldElement).isValid ∧
    (⟨24, 31⟩ : FieldElement).num ≠ 0 ∧
    (FieldElement.div ⟨3, 31⟩ ⟨24, 31⟩).bind (fun q => q.mul ⟨24, 31⟩) = .ok ⟨3, 31⟩ :=
  ⟨rfl, by decide, by decide, by decide, by decide,
   C7_div_mul_roundtrip ⟨3, 31⟩ ⟨24, 31⟩ rfl (by decide) (by decide) (by decide) (by decide)⟩

/-- C8 amended: Fermat periodicity of pow_mod holds for every valid
field element with NONZERO value over a prime modulus, for every
integer exponent k. -/
theorem C8_pow_mod_period (x : FieldElement) (k : Int)
    (hP : Nat.Prime x.prime.toNat) (hx : x.isValid) (h0 : x.num ≠ 0) :
    x.pow_mod k = x.pow_mod (k + (x.prime - 1)) := by
  obtain ⟨hx0, hx1⟩ := hx
  have hp2 : (2 : Int) ≤ x.prime := by have := hP.two_le; omega
  unfold FieldElement.pow_mod
  simp only []
  rw [normalizeExpAux_eq _ _ _ (by omega) (by omega),
      normalizeExpAux_eq _ _ _ (by omega) (by omega)]
  have hXpos : 0 < x.num.toNat := by omega
  have hXlt : x.num.toNat < x.prime.toNat := by omega
  have hnd := not_dvd_of_pos_lt hXpos hXlt
  by_cases hk : k < 0
  · by_cases hk2 : k + (x.prime - 1) < 0
    · rw [if_pos hk, if_pos hk2]
      have : (k + (x.prime - 1)) % (x.prime - 1) = k % (x.prime - 1) := Int.add_emod_self
      rw [this]
    · rw [if_pos hk, if_neg hk2]
      have h3 : k % (x.prime - 1) = k + (x.prime - 1) := by
        have h4 : (k + (x.prime - 1)) % (x.prime - 1) = k % (x.prime - 1) := Int.add_emod_self
        have h5 : (k + (x.prime - 1)) % (x.prime - 1) = k + (x.prime - 1) :=
          Int.emod_eq_of_lt (by omega) (by omega)
        omega
      rw [h3]
  · have hk2 : ¬ k + (x.prime - 1) < 0 := by omega
    rw [if_neg hk, if_neg hk2]
    have hE : (k + (x.prime - 1)).toNat = k.toNat + (x.prime.toNat - 1) := by omega
    rw [hE, modpow_eq, modpow_eq,
        fermat_period x.prime.toNat x.num.toNat k.toNat hP hnd]

/-- C8 witness at x = 17 over F_31 with exponent k = -3. -/
theorem C8_witness :
    Nat.Prime ((⟨17, 31⟩ : FieldElement) : FieldElement).prime.toNat ∧
    (⟨17, 31⟩ : FieldElement).isValid ∧
    (⟨17, 31⟩ : FieldElement).num ≠ 0 ∧
    FieldElement.pow_mod ⟨17, 31⟩ (-3) =
      FieldElement.pow_mod ⟨17, 31⟩ (-3 + ((⟨17, 31⟩ : FieldElement).prime - 1)) :=
  ⟨by decide, by decide, by decide,
   C8_pow_mod_period ⟨17, 31⟩ (-3) (by decide) (by decide) (by decide)⟩

/-- Bind on an Ok outcome applies the continuation. -/
theorem ok_bind {α β : Type} (a : α) (f : α → Except FieldElementError β) :
    (Except.ok a : Except FieldElementError α) >>= f = f a := rfl

/-- Closed form of the field-element double-and-add loop: with enough
fuel and a nonnegative counter it returns result + coef * current
reduced modulo the prime. -/
theorem scalarLoopFE_eq (p : Int) (hp : 0 < p) :
    ∀ (fuel : Nat) (coef : Int) (cur res : FieldElement),
      cur.prime = p → res.prime = p →
      0 ≤ cur.num → cur.num < p → 0 ≤ res.num → res.num < p →
      0 ≤ coef → coef.natAbs ≤ fuel →
      scalarLoopFE fuel coef cur res = .ok ⟨(res.num + coef * cur.num) % p, p⟩ := by
  intro fuel
  induction fuel with
  | zero =>
    intro coef cur res hc hr hc0 hc1 hr0 hr1 hcoef hfuel
    have h0 : coef = 0 := by omega
    subst h0
    show Except.ok res = _
    rw [zero_mul, add_zero, Int.emod_eq_of_lt hr0 hr1]
    obtain ⟨rn, rp⟩ := res
    simp only [] at hr
    rw [hr]
  | succ f ih =>
    intro coef cur res hc hr hc0 hc1 hr0 hr1 hcoef hfuel
    by_cases hpos : 0 < coef
    · simp only [scalarLoopFE]
      rw [if_pos hpos]
      have hdiv : Int.ediv coef 2 = coef / 2 := rfl
      have hd0 : 0 ≤ coef / 2 := Int.ediv_nonneg hcoef (by norm_num)
      have hdabs : (coef / 2).natAbs ≤ f := by omega
      have hpar : Int.tmod coef 2 = coef % 2 := Int.tmod_eq_emod hcoef (by norm_num)
      have hcadd : cur.add cur = .ok ⟨(cur.num + cur.num) % p, p⟩ := by
        rw [add_unfold cur cur rfl, hc, Int.tmod_eq_emod (by omega) (by omega)]
      have hm2 : ((cur.num + cur.num) % p) ≡ cur.num + cur.num [ZMOD p] :=
        Int.emod_emod_of_dvd _ dvd_rfl
      by_cases hodd : Int.tmod coef 2 = 1
      · rw [if_pos hodd]
        have hradd : res.add cur = .ok ⟨(res.num + cur.num) % p, p⟩ := by
          rw [add_unfold res cur (by rw [hr, hc]), hr, Int.tmod_eq_emod (by omega) (by omega)]
        rw [hradd, ok_bind, hcadd, ok_bind, hdiv,
            ih (coef / 2) ⟨(cur.num + cur.num) % p, p⟩ ⟨(res.num + cur.num) % p, p⟩ rfl rfl
              (Int.emod_nonneg _ (by omega)) (Int.emod_lt_of_pos _ hp)
              (Int.emod_nonneg _ (by omega)) (Int.emod_lt_of_pos _ hp) hd0 hdabs]
        have hm1 : ((res.num + cur.num) % p) ≡ res.num + cur.num [ZMOD p] :=
          Int.emod_emod_of_dvd _ dvd_rfl
        have hmod : ((res.num + cur.num) % p + coef / 2 * ((cur.num + cur.num) % p))
            ≡ res.num + cur.num + coef / 2 * (cur.num + cur.num) [ZMOD p] :=
          hm1.add (hm2.mul_left _)
        have hq : coef = 2 * (coef / 2) + 1 := by
          rw [hpar] at hodd
          omega
        have harith : res.num + cur.num + coef / 2 * (cur.num + cur.num)
            = res.num + coef * cur.num := by
          obtain ⟨q, hq2⟩ : ∃ q, coef / 2 = q := ⟨_, rfl⟩
          rw [hq2] at hq ⊢
          rw [hq]
          ring
        have : ((res.num + cur.num) % p + coef / 2 * ((cur.num + cur.num) % p)) % p
            = (res.num + coef * cur.num) % p := by
          rw [← harith]
          exact hmod
        rw [this]
      · rw [if_neg hodd]
        show (Except.ok res >>= fun r => cur.add cur >>= fun c2 => scalarLoopFE f (Int.ediv coef 2) c2 r) = _
        rw [ok_bind, hcadd, ok_bind, hdiv,
            ih (coef / 2) ⟨(cur.num + cur.num) % p, p⟩ res rfl hr
              (Int.emod_nonneg _ (by omega)) (Int.emod_lt_of_pos _ hp) hr0 hr1 hd0 hdabs]
        have hmod : (res.num + coef / 2 * ((cur.num + cur.num) % p))
            ≡ res.num + coef / 2 * (cur.num + cur.num) [ZMOD p] :=
          (Int.ModEq.refl res.num).add (hm2.mul_left _)
        have hq : coef = 2 * (coef / 2) := by
          rw [hpar] at hodd
          omega
        have harith : res.num + coef / 2 * (cur.num + cur.num)
            = res.num + coef * cur.num := by
          obtain ⟨q, hq2⟩ : ∃ q, coef / 2 = q := ⟨_, rfl⟩
          rw [hq2] at hq ⊢
          rw [hq]
          ring
        have : (res.num + coef / 2 * ((cur.num + cur.num) % p)) % p
            = (res.num + coef * cur.num) % p := by
          rw [← harith]
          exact hmod
        rw [this]
    · have h0 : coef = 0 := by omega
      subst h0
      simp only [scalarLoopFE]
      rw [if_neg hpos, zero_mul, add_zero, Int.emod_eq_of_lt hr0 hr1]
      obtain ⟨rn, rp⟩ := res
      simp only [] at hr
      rw [hr]

/-- Scalar multiplication of a valid field element by n at least 1
computes n * value reduced modulo the prime. -/
theorem mulFE_eq (n : Int) (fe : FieldElement) (h1 : 1 ≤ n)
    (hv : fe.isValid) (hp : 0 < fe.prime) :
    Scalar.mulFE ⟨n⟩ fe = .ok ⟨(n * fe.num) % fe.prime, fe.prime⟩ := by
  obtain ⟨h0, hlt⟩ := hv
  unfold Scalar.mulFE
  simp only []
  have hfv : FieldElement.from_values fe.num fe.prime = .ok ⟨fe.num, fe.prime⟩ := by
    unfold FieldElement.from_values
    rw [if_neg (by omega)]
  rw [hfv, ok_bind,
      scalarLoopFE_eq fe.prime hp (n - 1).natAbs (n - 1) fe ⟨fe.num, fe.prime⟩
        rfl rfl h0 hlt h0 hlt (by omega) le_rfl]
  have harith : fe.num + (n - 1) * fe.num = n * fe.num := by ring
  rw [harith]

/-- The n-fold repeated addition of a valid field element computes
n * value reduced modulo the prime. -/
theorem repAddFE_eq (fe : FieldElement) (hv : fe.isValid) (hp : 0 < fe.prime) :
    ∀ n : Nat, 1 ≤ n → repAddFE n fe = .ok ⟨((n : Int) * fe.num) % fe.prime, fe.prime⟩ := by
  obtain ⟨h0, hlt⟩ := hv
  intro n
  induction n with
  | zero => omega
  | succ m ih =>
    intro hm
    rcases m with _ | m2
    · show Except.ok fe = _
      rw [Nat.cast_one, one_mul, Int.emod_eq_of_lt h0 hlt]
    · show (repAddFE (m2 + 1) fe).bind (fun r => r.add fe) = _
      rw [ih (by omega)]
      show FieldElement.add ⟨((m2 + 1 : Nat) : Int) * fe.num % fe.prime, fe.prime⟩ fe = _
      rw [add_unfold ⟨((m2 + 1 : Nat) : Int) * fe.num % fe.prime, fe.prime⟩ fe rfl]
      dsimp only
      have hnn : (0 : Int) ≤ ((m2 + 1 : Nat) : Int) * fe.num % fe.prime + fe.num := by
        have := Int.emod_nonneg (((m2 + 1 : Nat) : Int) * fe.num) (show fe.prime ≠ 0 by omega)
        omega
      rw [Int.tmod_eq_emod hnn (by omega), Int.emod_add_emod]
      have harith : ((m2 + 1 : Nat) : Int) * fe.num + fe.num = ((m2 + 1 + 1 : Nat) : Int) * fe.num := by
        push_cast
        ring
      rw [harith]

/-- C9 witness at a = 29, b = 4 over F_31 with exponent k = -3. -/
theorem C9_witness :
    (1 : Int) < (⟨29, 31⟩ : FieldElement).prime ∧
    (⟨29, 31⟩ : FieldElement).prime = (⟨4, 31⟩ : FieldElement).prime ∧
    (⟨29, 31⟩ : FieldElement).isValid ∧ (⟨4, 31⟩ : FieldElement).isValid ∧
    (returnsValid (FieldElement.add ⟨29, 31⟩ ⟨4, 31⟩) ∧
     returnsValid (FieldElement.sub ⟨29, 31⟩ ⟨4, 31⟩) ∧
     returnsValid (FieldElement.mul ⟨29, 31⟩ ⟨4, 31⟩) ∧
     returnsValid (FieldElement.div ⟨29, 31⟩ ⟨4, 31⟩) ∧
     (FieldElement.pow_mod ⟨29, 31⟩ (-3)).isValid) :=
  ⟨by decide, rfl, by decide, by decide,
   C9_arithmetic_stays_in_range ⟨29, 31⟩ ⟨4, 31⟩ (-3) (by decide) rfl (by decide) (by decide)⟩

/-- The secp256k1 scalar multiplication agrees with repeated addition
of the generator for every multiplier from 1 to 20. -/
theorem mulS256_matches_repAdd_upto_20 :
    ∀ n : Nat, 1 ≤ n → n ≤ 20 →
      Scalar.mulS256 ⟨(n : Int)⟩ Gpoint = repAddPoint n Gpoint := by
  decide

/-- Double-and-add on a valid field element agrees with n-fold repeated
addition for every multiplier n of at least 1 (the field-element half
of the scalar-multiplication consistency property, in full
generality). -/
theorem mulFE_matches_repAddFE (n : Nat) (h1 : 1 ≤ n)
    (fe : FieldElement) (hv : fe.isValid) (hp : 0 < fe.prime) :
    Scalar.mulFE ⟨(n : Int)⟩ fe = repAddFE n fe := by
  rw [mulFE_eq (n : Int) fe (by exact_mod_cast h1) hv hp, repAddFE_eq fe hv hp n h1]

/-- C6: the consistency of double-and-add with n-fold repeated addition
fails for point operands on the small test curve y^2 = x^3 + 7 over
F_223.  The operand (0, 26) is constructible through Point::new, and at
n = 3 double-and-add returns (0, 26) itself while repeated addition
returns (0, 197): the two additions P + 2P and 2P + P both fall into
the additive-inverse branch of Point::add, which returns its left
operand instead of the point at infinity (the C1 slip), so the two
association orders disagree.  A correct group law would return the
point at infinity on both sides. -/
theorem C6_small_order_point_breaks_consistency :
    Point.new ⟨0, 223⟩ ⟨7, 223⟩ (some ⟨0, 223⟩) (some ⟨26, 223⟩) = .ok p0y26 ∧
    Scalar.mulPoint ⟨3⟩ p0y26 = .ok p0y26 ∧
    repAddPoint 3 p0y26 = .ok p0y197 ∧
    p0y26 ≠ p0y197 ∧
    Scalar.mulPoint ⟨3⟩ p0y26 ≠ repAddPoint 3 p0y26 := by
  decide
